import Mathlib

/-!
Formal model of the PySyft "Encrypted Linear Regression" tutorial and of the
SMPC linear-regression core its specification describes.

The repository fragment contains a single tutorial notebook
(`examples/tutorials/advanced/Encrypted Linear Regression.ipynb`): the actual
SMPC engine (secret sharing, encrypted matrix operations, the
`EncryptedLinearRegression` class) lives in library code that is not part of
the fragment.  Following the specification, the engine is modelled here from
the spec's own words; the notebook's glue code (scaling, data movement between
virtual workers) is embedded from the notebook source itself.

Values are modelled as exact rationals (the spec leaves the secret-sharing
field size and fixed-point scaling open, flagging them as implementation
choices; additive secret sharing is exact over any abelian group, so ℚ models
the arithmetic content faithfully).
-/

namespace PySyft

/-- Modelled from the spec: the seven error kinds of section 7
(`InvalidPartyCount`, `IncompleteShares`, `TripleExhausted`, `ShapeMismatch`,
`NonConvergent`, `NotSolved`, `PartyUnavailable`). -/
inductive SmpcError where
  | InvalidPartyCount
  | IncompleteShares
  | TripleExhausted
  | ShapeMismatch
  | NonConvergent
  | NotSolved
  | PartyUnavailable
deriving DecidableEq, Repr

/-! ## SecretShareEngine -/

/-- The raw additive-sharing step: the first `parties - 1` shares are the
blinding randomness, the last share is the value minus their sum (so that the
shares sum back to the value).  `rand` supplies the blinding randomness. -/
def shareRaw (v : ℚ) (parties : Nat) (rand : Nat → ℚ) : List ℚ :=
  ((List.range (parties - 1)).map rand) ++
    [v - ((List.range (parties - 1)).map rand).sum]

/-- Modelled from the spec: `share(value, parties) -> ShareSet` splits a value
into n additive shares; fails with `InvalidPartyCount` if `parties < 2`.
(The secret-sharing engine itself is library code absent from the fragment.) -/
def share (v : ℚ) (parties : Nat) (rand : Nat → ℚ) : Except SmpcError (List ℚ) :=
  if parties < 2 then .error .InvalidPartyCount
  else .ok (shareRaw v parties rand)

/-- Modelled from the spec: `reconstruct(shares) -> value` requires shares from
all holders (`expected` many); fails with `IncompleteShares` otherwise.
Reconstruction of an additive sharing is the sum of the shares. -/
def reconstruct (expected : Nat) (shares : List ℚ) : Except SmpcError ℚ :=
  if shares.length = expected then .ok shares.sum
  else .error .IncompleteShares

theorem shareRaw_length (v : ℚ) (parties : Nat) (rand : Nat → ℚ) :
    (shareRaw v parties rand).length = parties - 1 + 1 := by
  simp [shareRaw]

theorem shareRaw_sum (v : ℚ) (parties : Nat) (rand : Nat → ℚ) :
    (shareRaw v parties rand).sum = v := by
  simp [shareRaw]

theorem reconstruct_shareRaw (v : ℚ) (parties : Nat) (rand : Nat → ℚ)
    (h : 1 ≤ parties) :
    reconstruct parties (shareRaw v parties rand) = .ok v := by
  have hlen : (shareRaw v parties rand).length = parties := by
    rw [shareRaw_length]
    omega
  simp [reconstruct, hlen, shareRaw_sum]

/-- C2: For every value `v` and every party count `n ≥ 2`, reconstructing the full
share set produced by `share v n` returns exactly `v`: `reconstruct` is a left
inverse of `share` when all shares are supplied. -/
theorem reconstruct_share (v : ℚ) (n : Nat) (rand : Nat → ℚ) (h : 2 ≤ n) :
    (share v n rand).bind (reconstruct n) = .ok v := by
  have hn : ¬ n < 2 := by omega
  rw [share, if_neg hn]
  simpa using reconstruct_shareRaw v n rand (by omega)

/-- Witness for C2 at `v = 7`, `n = 3`. -/
theorem reconstruct_share_witness :
    (share 7 3 (fun i => (i : ℚ))).bind (reconstruct 3) = .ok 7 :=
  reconstruct_share 7 3 (fun i => (i : ℚ)) (by decide)

/-! ## Crypto provider and secure multiplication -/

/-- Modelled from the spec: a Beaver multiplication triple `(a, b, c)` supplied
by the crypto provider (for a correctly generated triple, `c = a * b`). -/
structure Triple where
  a : ℚ
  b : ℚ
  c : ℚ
deriving DecidableEq, Repr

/-- Modelled from the spec: the `CryptoProvider` party, trusted for randomness
only; it holds a stock of fresh multiplication triples. -/
structure CryptoProvider where
  triples : List Triple
deriving DecidableEq, Repr

/-- Beaver multiplication with one triple: the parties open the blinded values
`d = a - tₐ` and `e = b - t_b` and from them form shares of the product
`c + d·t_b + e·tₐ + d·e`; here the correction lands in the first share.  For a
correct triple (`c = tₐ·t_b`) the shares sum to `a·b`. -/
def beaverProduct (aShares bShares : List ℚ) (t : Triple) : List ℚ :=
  let d := aShares.sum - t.a
  let e := bShares.sum - t.b
  (t.c + d * t.b + e * t.a + d * e) :: List.replicate (aShares.length - 1) 0

/-- Modelled from the spec:
`secure_multiply(a_shares, b_shares, crypto_provider) -> product_shares`
consumes one multiplication triple from the crypto provider per call; fails
with `TripleExhausted` if the provider cannot supply fresh randomness.  The
updated provider (with the used triple removed) is returned alongside the
product shares. -/
def secure_multiply (aShares bShares : List ℚ) (cp : CryptoProvider) :
    Except SmpcError (List ℚ × CryptoProvider) :=
  match cp.triples with
  | [] => .error .TripleExhausted
  | t :: rest => .ok (beaverProduct aShares bShares t, ⟨rest⟩)

theorem beaverProduct_sum (aShares bShares : List ℚ) (t : Triple)
    (hc : t.c = t.a * t.b) :
    (beaverProduct aShares bShares t).sum = aShares.sum * bShares.sum := by
  simp [beaverProduct, hc]
  ring

/-- C5: every call to `secure_multiply` consumes exactly one multiplication
triple from the crypto provider — on success the returned provider holds one
triple fewer (namely the tail of the stock) — and a call made when the provider
has no fresh triples left fails with `TripleExhausted`. -/
theorem secure_multiply_consumes_one_triple (aShares bShares : List ℚ)
    (cp : CryptoProvider) :
    (cp.triples = [] → secure_multiply aShares bShares cp = .error .TripleExhausted) ∧
    (∀ out cp', secure_multiply aShares bShares cp = .ok (out, cp') →
      cp'.triples.length + 1 = cp.triples.length) ∧
    (cp.triples ≠ [] →
      ∃ out cp', secure_multiply aShares bShares cp = .ok (out, cp')) := by
  refine ⟨fun h => ?_, fun out cp' h => ?_, fun h => ?_⟩
  · simp [secure_multiply, h]
  · cases hcp : cp.triples with
    | nil => simp [secure_multiply, hcp] at h
    | cons t rest =>
        simp only [secure_multiply, hcp] at h
        cases h
        simp [hcp]
  · cases hcp : cp.triples with
    | nil => exact absurd hcp h
    | cons t rest =>
        exact ⟨beaverProduct aShares bShares t, ⟨rest⟩, by
          simp [secure_multiply, hcp]⟩

/-- Witness for C5: with an empty stock the call fails with `TripleExhausted`,
and with a one-triple stock it succeeds, leaving an empty stock. -/
theorem secure_multiply_consumes_one_triple_witness :
    secure_multiply [1, 2] [3, 4] ⟨[]⟩ = .error .TripleExhausted ∧
    secure_multiply [1, 2] [3, 4] ⟨[⟨2, 3, 6⟩]⟩ =
      .ok (beaverProduct [1, 2] [3, 4] ⟨2, 3, 6⟩, ⟨[]⟩) :=
  ⟨(secure_multiply_consumes_one_triple [1, 2] [3, 4] ⟨[]⟩).1 rfl, rfl⟩

/-! ## Parties, availability and the event trace -/

/-- Modelled from the spec: the parties of the protocol — the data holders, the
crypto provider, and the honest-but-curious auxiliary worker (the notebook
creates the latter two as `crypto_prov` and `hbc_worker`). -/
inductive PartyId where
  | holder (i : Nat)
  | cryptoProvider
  | hbcWorker
deriving DecidableEq, Repr

/-- A party is required for a fit over `nholders` data holders iff it is one of
those holders, the crypto provider, or the honest-but-curious worker. -/
def requiredParty (nholders : Nat) : PartyId → Prop
  | .holder i => i < nholders
  | .cryptoProvider => True
  | .hbcWorker => True

/-- All parties required for `nholders` data holders are available. -/
def allAvailable (avail : PartyId → Bool) (nholders : Nat) : Bool :=
  ((List.range nholders).all fun i => avail (.holder i)) &&
    avail .cryptoProvider && avail .hbcWorker

/-- What a reveal discloses: either the final aggregate statistics, or (never
emitted by the model, by the spec's invariant) a holder's raw shard. -/
inductive RevealKind where
  | aggregateStats
  | rawShard (holder : Nat)
deriving DecidableEq, Repr

/-- Observable protocol events: a holder sending out shares of its local
partial products, or a value crossing the reveal boundary. -/
inductive Event where
  | sharesSent (holder : Nat)
  | reveal (k : RevealKind)
deriving DecidableEq, Repr

/-- Whether an event is a crossing of the reveal boundary. -/
def Event.isReveal : Event → Bool
  | .reveal _ => true
  | .sharesSent _ => false

/-- Number of reveal events in a trace. -/
def revealCount (tr : List Event) : Nat :=
  (tr.filter Event.isReveal).length

/-! ## Normal-equation statistics of plaintext data -/

/-- Entry `(j, k)` of `XᵀX` for a row-major design matrix (out-of-range
coordinates read as `0`). -/
def gramEntry (rows : List (List ℚ)) (j k : Nat) : ℚ :=
  (rows.map fun r => r.getD j 0 * r.getD k 0).sum

/-- Entry `j` of `Xᵀy` for a row-major design matrix and target vector. -/
def momentEntry (rows : List (List ℚ)) (ys : List ℚ) (j : Nat) : ℚ :=
  ((rows.zip ys).map fun ry => ry.1.getD j 0 * ry.2).sum

/-- Componentwise sum of two share vectors (each party adds the shares it
holds; purely local, no communication). -/
def vecAdd (xs ys : List ℚ) : List ℚ := List.zipWith (· + ·) xs ys

/-- Componentwise sum of a collection of `n`-party share sets: the aggregate
stays shared, party `i` ending up with the sum of all the `i`-th shares. -/
def sumShareSets (n : Nat) (sets : List (List ℚ)) : List ℚ :=
  sets.foldl vecAdd (List.replicate n 0)

/-! ## EncryptedLinearRegression -/

/-- Modelled from the spec: the solver for the encrypted normal equations
(`secure_inverse`, e.g. Newton–Schulz).  The spec flags the exact algorithm as
an implementation choice left open, so it is a parameter here: it maps the
moment matrix `XᵀX` and vector `Xᵀy` (as entry functions) to the coefficient
vector, or to `none` when the iterative method fails to converge within its
budget (`NonConvergent`). -/
def Solver : Type := (Nat → Nat → ℚ) → (Nat → ℚ) → Option (Nat → ℚ)

/-- Blinding-randomness supply for the sharing steps, indexed by a tag, a
holder index, two coordinate indices, and the share index. -/
def RandSupply : Type := Nat → Nat → Nat → Nat → Nat → ℚ

/-- Modelled from the spec: the model state machine
`Created → DataAggregated → Solved → Revealed`. -/
inductive LRState where
  | Created
  | DataAggregated
  | Solved
  | Revealed
deriving DecidableEq, Repr

/-- Modelled from the spec: the `EncryptedLinearRegression` model object
(imported by the notebook from `syft.frameworks.torch.linalg`; its
implementation is library code absent from the fragment).  It carries the
state-machine state and the secret-shared aggregates: for each pair `(j, k)`
the share vector of the `XᵀX` entry, for each `j` the share vector of the
`Xᵀy` entry, and after solving the share vector of each coefficient. -/
structure EncryptedLinearRegression where
  p : Nat
  nholders : Nat
  state : LRState
  sharedXtX : Nat → Nat → List ℚ
  sharedXty : Nat → List ℚ
  coefShares : Nat → List ℚ

/-- A freshly constructed model for `p` features, in state `Created`, holding
no shares. -/
def EncryptedLinearRegression.init (p : Nat) : EncryptedLinearRegression :=
  { p := p
    nholders := 0
    state := .Created
    sharedXtX := fun _ _ => []
    sharedXty := fun _ => []
    coefShares := fun _ => [] }

/-- Shape validity of the per-holder shards: as many target shards as data
shards, every row carries `p` features, and each holder's row count matches
its target count. -/
def checkShapes (p : Nat) (shardsX : List (List (List ℚ)))
    (shardsY : List (List ℚ)) : Bool :=
  shardsX.length == shardsY.length &&
    shardsX.all (fun s => s.all fun r => r.length == p) &&
    (shardsX.zip shardsY).all fun sy => sy.1.length == sy.2.length

/-- Modelled from the spec: the aggregation phase of `fit`.  Each holder
locally computes its partial `XᵀX` and `Xᵀy` contributions, additively shares
them among the holders, and the parties sum the received shares componentwise,
so the aggregate stays secret-shared.  Transitions `Created → DataAggregated`.
Aborts with `PartyUnavailable` if any required party is lost, `ShapeMismatch`
on inconsistent shapes, `InvalidPartyCount` with fewer than two holders.  The
trace records the share traffic; nothing is revealed. -/
def aggregatedModel (m : EncryptedLinearRegression)
    (shardsX : List (List (List ℚ))) (shardsY : List (List ℚ))
    (rand : RandSupply) : EncryptedLinearRegression :=
  { m with
    state := .DataAggregated
    nholders := shardsX.length
    sharedXtX := fun j k => sumShareSets shardsX.length
      (shardsX.enum.map fun ix =>
        shareRaw (gramEntry ix.2 j k) shardsX.length (rand 0 ix.1 j k))
    sharedXty := fun j => sumShareSets shardsX.length
      ((shardsX.zip shardsY).enum.map fun ixy =>
        shareRaw (momentEntry ixy.2.1 ixy.2.2 j) shardsX.length
          (rand 1 ixy.1 j 0)) }

/-- Guarded aggregation: aborts with `PartyUnavailable` if any required party
is lost, `ShapeMismatch` on inconsistent shapes, `InvalidPartyCount` with
fewer than two holders; otherwise produces the aggregated model, the trace
recording the share traffic and revealing nothing. -/
def aggregateStep (avail : PartyId → Bool) (m : EncryptedLinearRegression)
    (shardsX : List (List (List ℚ))) (shardsY : List (List ℚ))
    (rand : RandSupply) :
    List Event × Except SmpcError EncryptedLinearRegression :=
  if ¬ allAvailable avail shardsX.length then ([], .error .PartyUnavailable)
  else if ¬ checkShapes m.p shardsX shardsY then ([], .error .ShapeMismatch)
  else if shardsX.length < 2 then ([], .error .InvalidPartyCount)
  else
    ((List.range shardsX.length).map Event.sharesSent,
      .ok (aggregatedModel m shardsX shardsY rand))

/-- Modelled from the spec: the solve phase of `fit`.  The shared normal
equations are solved under encryption; the coefficient vector is produced in
secret-shared form (never revealed here).  Transitions
`DataAggregated → Solved`; fails with `NonConvergent` when the iterative
solver does not converge. -/
def solvedModel (m : EncryptedLinearRegression) (coef : Nat → ℚ)
    (rand : RandSupply) : EncryptedLinearRegression :=
  { m with
    state := .Solved
    coefShares := fun j => shareRaw (coef j) m.nholders (rand 2 0 j 0) }

/-- Guarded solve: fails with `NonConvergent` when the iterative solver does
not converge; otherwise produces the solved model, revealing nothing. -/
def solveStep (solver : Solver) (m : EncryptedLinearRegression)
    (rand : RandSupply) :
    List Event × Except SmpcError EncryptedLinearRegression :=
  match solver (fun j k => (m.sharedXtX j k).sum)
      (fun j => (m.sharedXty j).sum) with
  | none => ([], .error .NonConvergent)
  | some coef => ([], .ok (solvedModel m coef rand))

/-- Modelled from the spec: `fit(shards_X, shards_y)` aggregates `XᵀX` and
`Xᵀy` across shards under encryption, then solves for the coefficients via the
encrypted solver, transitioning `Created → DataAggregated → Solved`.  Errors
from either phase are terminal and propagate unchanged; nothing is retried. -/
def fit (solver : Solver) (avail : PartyId → Bool)
    (m : EncryptedLinearRegression) (shardsX : List (List (List ℚ)))
    (shardsY : List (List ℚ)) (rand : RandSupply) :
    List Event × Except SmpcError EncryptedLinearRegression :=
  match aggregateStep avail m shardsX shardsY rand with
  | (tr, .error e) => (tr, .error e)
  | (tr, .ok m1) =>
    match solveStep solver m1 rand with
    | (tr2, .error e) => (tr ++ tr2, .error e)
    | (tr2, .ok m2) => (tr ++ tr2, .ok m2)

/-- Modelled from the spec: `AggregateStatistics` — the only values ever
reconstructed in the clear, at the end of fitting.  The coefficient vector is
given as a function of the coordinate index. -/
structure AggregateStatistics where
  coefficients : Nat → ℚ

/-- Modelled from the spec: `summarize()` performs the single controlled
reveal.  It fails with `NotSolved` unless the model is in state `Solved`,
aborts with `PartyUnavailable` if a required party was lost, reconstructs the
shared coefficients (all shares required, `IncompleteShares` otherwise), and
transitions `Solved → Revealed`, emitting the one reveal event. -/
def summarize (avail : PartyId → Bool) (m : EncryptedLinearRegression) :
    List Event ×
      Except SmpcError (AggregateStatistics × EncryptedLinearRegression) :=
  if m.state ≠ .Solved then ([], .error .NotSolved)
  else if ¬ allAvailable avail m.nholders then ([], .error .PartyUnavailable)
  else if ¬ ((List.range m.p).all fun j =>
      (m.coefShares j).length == m.nholders) then
    ([], .error .IncompleteShares)
  else
    ([.reveal .aggregateStats],
      .ok (⟨fun j => (m.coefShares j).sum⟩, { m with state := .Revealed }))

/-- The whole pipeline the notebook runs: `fit` then `summarize`, traces
appended, errors propagating unchanged (no retry, no recovery). -/
def fitThenSummarize (solver : Solver) (avail : PartyId → Bool)
    (m : EncryptedLinearRegression) (shardsX : List (List (List ℚ)))
    (shardsY : List (List ℚ)) (rand : RandSupply) :
    List Event ×
      Except SmpcError (AggregateStatistics × EncryptedLinearRegression) :=
  match fit solver avail m shardsX shardsY rand with
  | (tr, .error e) => (tr, .error e)
  | (tr, .ok m1) =>
    match summarize avail m1 with
    | (tr2, res) => (tr ++ tr2, res)

/-- Reference, written to the spec's words: an unencrypted ordinary
least-squares fit on a plaintext dataset — the same solver applied to the
normal equations built directly from the full data. -/
def plainOLS (solver : Solver) (rows : List (List ℚ)) (ys : List ℚ) :
    Option (Nat → ℚ) :=
  solver (gramEntry rows) (momentEntry rows ys)

/-! ## Correctness of the encrypted aggregation -/

theorem vecAdd_length (xs ys : List ℚ) (h : ys.length = xs.length) :
    (vecAdd xs ys).length = xs.length := by
  simp [vecAdd, h]

theorem vecAdd_sum (xs ys : List ℚ) (h : ys.length = xs.length) :
    (vecAdd xs ys).sum = xs.sum + ys.sum := by
  induction xs generalizing ys with
  | nil =>
    cases ys with
    | nil => simp [vecAdd]
    | cons y ys => simp at h
  | cons x xs ih =>
    cases ys with
    | nil => simp at h
    | cons y ys =>
      simp only [List.length_cons, Nat.succ.injEq] at h
      simp only [vecAdd, List.zipWith_cons_cons, List.sum_cons]
      rw [show List.zipWith (· + ·) xs ys = vecAdd xs ys from rfl, ih ys h]
      ring

theorem foldl_vecAdd_length (sets : List (List ℚ)) (n : Nat) :
    ∀ acc : List ℚ, acc.length = n → (∀ s ∈ sets, s.length = n) →
      (sets.foldl vecAdd acc).length = n := by
  induction sets with
  | nil => intro acc hacc _; simpa using hacc
  | cons s sets ih =>
    intro acc hacc hs
    simp only [List.foldl_cons]
    refine ih (vecAdd acc s) ?_ fun t ht => hs t (List.mem_cons_of_mem s ht)
    rw [vecAdd_length acc s]
    · exact hacc
    · rw [hacc, hs s (List.mem_cons_self s sets)]

theorem foldl_vecAdd_sum (sets : List (List ℚ)) (n : Nat) :
    ∀ acc : List ℚ, acc.length = n → (∀ s ∈ sets, s.length = n) →
      (sets.foldl vecAdd acc).sum = acc.sum + (sets.map List.sum).sum := by
  induction sets with
  | nil => intro acc _ _; simp
  | cons s sets ih =>
    intro acc hacc hs
    simp only [List.foldl_cons, List.map_cons, List.sum_cons]
    rw [ih (vecAdd acc s) ?hlen fun t ht => hs t (List.mem_cons_of_mem s ht)]
    · rw [vecAdd_sum acc s]
      · ring
      · rw [hacc, hs s (List.mem_cons_self s sets)]
    case hlen =>
      rw [vecAdd_length acc s]
      · exact hacc
      · rw [hacc, hs s (List.mem_cons_self s sets)]

theorem sumShareSets_sum (n : Nat) (sets : List (List ℚ))
    (h : ∀ s ∈ sets, s.length = n) :
    (sumShareSets n sets).sum = (sets.map List.sum).sum := by
  rw [sumShareSets, foldl_vecAdd_sum sets n (List.replicate n 0) (by simp) h]
  simp

theorem sumShareSets_length (n : Nat) (sets : List (List ℚ))
    (h : ∀ s ∈ sets, s.length = n) :
    (sumShareSets n sets).length = n :=
  foldl_vecAdd_length sets n (List.replicate n 0) (by simp) h

theorem map_snd_enumFrom {α β : Type} (f : α → β) :
    ∀ (n : Nat) (l : List α),
      (List.enumFrom n l).map (fun ix => f ix.2) = l.map f
  | _, [] => rfl
  | n, x :: xs => by
    simp [List.enumFrom, map_snd_enumFrom f (n + 1) xs]

theorem map_snd_enum {α β : Type} (f : α → β) (l : List α) :
    (l.enum.map fun ix => f ix.2) = l.map f :=
  map_snd_enumFrom f 0 l

/-- The reconstructed value of an aggregated share set is the sum of the
holders' plaintext partials: additive aggregation under sharing is exact. -/
theorem sumShareSets_enum_shareRaw {α : Type} (l : List α) (f : α → ℚ)
    (n : Nat) (hn : 1 ≤ n) (rands : Nat → Nat → ℚ) :
    (sumShareSets n (l.enum.map fun ix =>
      shareRaw (f ix.2) n (rands ix.1))).sum = (l.map f).sum := by
  rw [sumShareSets_sum]
  · rw [List.map_map]
    have hcomp : (List.sum ∘ fun ix : Nat × α => shareRaw (f ix.2) n (rands ix.1)) =
        fun ix : Nat × α => f ix.2 := by
      funext ix
      exact shareRaw_sum (f ix.2) n (rands ix.1)
    rw [hcomp, map_snd_enum f l]
  · intro s hs
    simp only [List.mem_map] at hs
    obtain ⟨ix, _, rfl⟩ := hs
    rw [shareRaw_length]
    omega

theorem gramEntry_append (r₁ r₂ : List (List ℚ)) (j k : Nat) :
    gramEntry (r₁ ++ r₂) j k = gramEntry r₁ j k + gramEntry r₂ j k := by
  simp [gramEntry]

theorem gramEntry_flatten (shards : List (List (List ℚ))) (j k : Nat) :
    gramEntry shards.flatten j k =
      (shards.map fun s => gramEntry s j k).sum := by
  induction shards with
  | nil => simp [gramEntry]
  | cons s shards ih =>
    simp only [List.flatten_cons, List.map_cons, List.sum_cons,
      gramEntry_append, ih]

theorem momentEntry_append (r₁ r₂ : List (List ℚ)) (y₁ y₂ : List ℚ)
    (h : r₁.length = y₁.length) (j : Nat) :
    momentEntry (r₁ ++ r₂) (y₁ ++ y₂) j =
      momentEntry r₁ y₁ j + momentEntry r₂ y₂ j := by
  simp [momentEntry, List.zip_append h]

theorem momentEntry_flatten (shardsX : List (List (List ℚ)))
    (shardsY : List (List ℚ))
    (hlen : shardsX.length = shardsY.length)
    (h : ∀ sy ∈ shardsX.zip shardsY, sy.1.length = sy.2.length) (j : Nat) :
    momentEntry shardsX.flatten shardsY.flatten j =
      ((shardsX.zip shardsY).map fun sy => momentEntry sy.1 sy.2 j).sum := by
  induction shardsX generalizing shardsY with
  | nil =>
    cases shardsY with
    | nil => simp [momentEntry]
    | cons y ys => simp at hlen
  | cons s shardsX ih =>
    cases shardsY with
    | nil => simp at hlen
    | cons ys shardsY =>
      simp only [List.length_cons, Nat.succ.injEq] at hlen
      simp only [List.zip_cons_cons, List.map_cons, List.sum_cons] at h ⊢
      rw [List.flatten_cons, List.flatten_cons,
        momentEntry_append s shardsX.flatten ys shardsY.flatten
          (h (s, ys) (List.mem_cons_self _ _)) j,
        ih shardsY hlen fun sy hsy => h sy (List.mem_cons_of_mem _ hsy)]

theorem checkShapes_spec (p : Nat) (shardsX : List (List (List ℚ)))
    (shardsY : List (List ℚ)) (h : checkShapes p shardsX shardsY = true) :
    shardsX.length = shardsY.length ∧
      (∀ s ∈ shardsX, ∀ r ∈ s, r.length = p) ∧
      (∀ sy ∈ shardsX.zip shardsY, sy.1.length = sy.2.length) := by
  simp only [checkShapes, Bool.and_eq_true, List.all_eq_true, beq_iff_eq] at h
  exact ⟨h.1.1, h.1.2, h.2⟩

theorem aggregateStep_eq_ok (avail : PartyId → Bool)
    (m : EncryptedLinearRegression) (shardsX : List (List (List ℚ)))
    (shardsY : List (List ℚ)) (rand : RandSupply)
    (hav : allAvailable avail shardsX.length = true)
    (hshape : checkShapes m.p shardsX shardsY = true)
    (h2 : 2 ≤ shardsX.length) :
    aggregateStep avail m shardsX shardsY rand =
      ((List.range shardsX.length).map Event.sharesSent,
        .ok (aggregatedModel m shardsX shardsY rand)) := by
  have hlt : ¬ shardsX.length < 2 := by omega
  simp [aggregateStep, hav, hshape, hlt]

theorem solveStep_eq_ok (solver : Solver) (m : EncryptedLinearRegression)
    (rand : RandSupply) (coef : Nat → ℚ)
    (hsolve : solver (fun j k => (m.sharedXtX j k).sum)
      (fun j => (m.sharedXty j).sum) = some coef) :
    solveStep solver m rand = ([], .ok (solvedModel m coef rand)) := by
  rw [solveStep, hsolve]

theorem aggregatedModel_sharedXtX_sum (m : EncryptedLinearRegression)
    (shardsX : List (List (List ℚ))) (shardsY : List (List ℚ))
    (rand : RandSupply) (h1 : 1 ≤ shardsX.length) (j k : Nat) :
    ((aggregatedModel m shardsX shardsY rand).sharedXtX j k).sum =
      gramEntry shardsX.flatten j k := by
  have h := sumShareSets_enum_shareRaw shardsX (fun s => gramEntry s j k)
    shardsX.length h1 (fun i => rand 0 i j k)
  rw [gramEntry_flatten]
  exact h

theorem aggregatedModel_sharedXty_sum (m : EncryptedLinearRegression)
    (shardsX : List (List (List ℚ))) (shardsY : List (List ℚ))
    (rand : RandSupply) (h1 : 1 ≤ shardsX.length)
    (hlen : shardsX.length = shardsY.length)
    (hzip : ∀ sy ∈ shardsX.zip shardsY, sy.1.length = sy.2.length) (j : Nat) :
    ((aggregatedModel m shardsX shardsY rand).sharedXty j).sum =
      momentEntry shardsX.flatten shardsY.flatten j := by
  have h := sumShareSets_enum_shareRaw (shardsX.zip shardsY)
    (fun sy => momentEntry sy.1 sy.2 j) shardsX.length h1
    (fun i => rand 1 i j 0)
  rw [momentEntry_flatten shardsX shardsY hlen hzip j]
  exact h

theorem fit_eq_ok (solver : Solver) (avail : PartyId → Bool)
    (m : EncryptedLinearRegression) (shardsX : List (List (List ℚ)))
    (shardsY : List (List ℚ)) (rand : RandSupply) (coef : Nat → ℚ)
    (hav : allAvailable avail shardsX.length = true)
    (hshape : checkShapes m.p shardsX shardsY = true)
    (h2 : 2 ≤ shardsX.length)
    (hsolve : plainOLS solver shardsX.flatten shardsY.flatten = some coef) :
    fit solver avail m shardsX shardsY rand =
      ((List.range shardsX.length).map Event.sharesSent,
        .ok (solvedModel (aggregatedModel m shardsX shardsY rand) coef rand)) := by
  obtain ⟨hlen, _, hzip⟩ := checkShapes_spec m.p shardsX shardsY hshape
  have hXtX : (fun j k =>
      ((aggregatedModel m shardsX shardsY rand).sharedXtX j k).sum) =
      gramEntry shardsX.flatten := by
    funext j k
    exact aggregatedModel_sharedXtX_sum m shardsX shardsY rand (by omega) j k
  have hXty : (fun j =>
      ((aggregatedModel m shardsX shardsY rand).sharedXty j).sum) =
      momentEntry shardsX.flatten shardsY.flatten := by
    funext j
    exact aggregatedModel_sharedXty_sum m shardsX shardsY rand (by omega)
      hlen hzip j
  have hsolve' : solver
      (fun j k => ((aggregatedModel m shardsX shardsY rand).sharedXtX j k).sum)
      (fun j => ((aggregatedModel m shardsX shardsY rand).sharedXty j).sum) =
      some coef := by
    rw [hXtX, hXty]
    exact hsolve
  rw [fit, aggregateStep_eq_ok avail m shardsX shardsY rand hav hshape h2]
  dsimp only
  rw [solveStep_eq_ok solver (aggregatedModel m shardsX shardsY rand) rand coef
    hsolve']
  simp

theorem summarize_eq_ok (avail : PartyId → Bool)
    (m : EncryptedLinearRegression) (hstate : m.state = .Solved)
    (hav : allAvailable avail m.nholders = true)
    (hlen : ∀ j, (m.coefShares j).length = m.nholders) :
    summarize avail m =
      ([.reveal .aggregateStats],
        .ok (⟨fun j => (m.coefShares j).sum⟩, { m with state := .Revealed })) := by
  have hall : ((List.range m.p).all fun j =>
      (m.coefShares j).length == m.nholders) = true := by
    simp only [List.all_eq_true, beq_iff_eq]
    exact fun j _ => hlen j
  simp [summarize, hstate, hav, hall]

theorem solvedModel_coefShares_sum (m : EncryptedLinearRegression)
    (coef : Nat → ℚ) (rand : RandSupply) (j : Nat) :
    ((solvedModel m coef rand).coefShares j).sum = coef j :=
  shareRaw_sum (coef j) m.nholders (rand 2 0 j 0)

theorem solvedModel_coefShares_length (m : EncryptedLinearRegression)
    (coef : Nat → ℚ) (rand : RandSupply) (h1 : 1 ≤ m.nholders) (j : Nat) :
    ((solvedModel m coef rand).coefShares j).length = m.nholders := by
  show (shareRaw (coef j) m.nholders (rand 2 0 j 0)).length = m.nholders
  rw [shareRaw_length]
  omega

/-- Full characterization of the happy path: from a fresh model, `fit` followed
by `summarize` reveals exactly the solver's solution of the normal equations
of the reunified (concatenated) dataset, emits the share traffic followed by
the single reveal event, and ends in state `Revealed`. -/
theorem fitThenSummarize_eq_ok (solver : Solver) (avail : PartyId → Bool)
    (shardsX : List (List (List ℚ))) (shardsY : List (List ℚ))
    (rand : RandSupply) (p : Nat) (coef : Nat → ℚ)
    (hav : allAvailable avail shardsX.length = true)
    (hshape : checkShapes p shardsX shardsY = true)
    (h2 : 2 ≤ shardsX.length)
    (hsolve : plainOLS solver shardsX.flatten shardsY.flatten = some coef) :
    ∃ stats mRev,
      fitThenSummarize solver avail (EncryptedLinearRegression.init p)
          shardsX shardsY rand =
        ((List.range shardsX.length).map Event.sharesSent ++
            [.reveal .aggregateStats], .ok (stats, mRev)) ∧
      mRev.state = .Revealed ∧ ∀ j, stats.coefficients j = coef j := by
  have hshape' : checkShapes (EncryptedLinearRegression.init p).p
      shardsX shardsY = true := hshape
  have hfit := fit_eq_ok solver avail (EncryptedLinearRegression.init p)
    shardsX shardsY rand coef hav hshape' h2 hsolve
  have hnh : (solvedModel
      (aggregatedModel (EncryptedLinearRegression.init p) shardsX shardsY rand)
      coef rand).nholders = shardsX.length := rfl
  have hagg1 : 1 ≤ (aggregatedModel (EncryptedLinearRegression.init p)
      shardsX shardsY rand).nholders := by
    show 1 ≤ shardsX.length
    omega
  have hsum := summarize_eq_ok avail
    (solvedModel
      (aggregatedModel (EncryptedLinearRegression.init p) shardsX shardsY rand)
      coef rand)
    rfl (by rw [hnh]; exact hav)
    (fun j => solvedModel_coefShares_length _ coef rand hagg1 j)
  refine ⟨⟨fun j => ((solvedModel
      (aggregatedModel (EncryptedLinearRegression.init p) shardsX shardsY rand)
      coef rand).coefShares j).sum⟩,
    { solvedModel
        (aggregatedModel (EncryptedLinearRegression.init p) shardsX shardsY
          rand) coef rand with state := .Revealed }, ?_, rfl,
    fun j => solvedModel_coefShares_sum _ coef rand j⟩
  rw [fitThenSummarize, hfit]
  dsimp only
  rw [hsum]

/-- C1: for every dataset validly partitioned across at least 2 data holders,
calling `fit` on the per-holder shards and then `summarize` yields a
coefficient vector whose every coordinate is within 0.2% relative tolerance of
the coefficients of an unencrypted ordinary-least-squares fit on the reunified
(concatenated) dataset — here they agree exactly, the additive aggregation
being lossless over the rationals. -/
theorem fit_summarize_within_tolerance_of_plain_ols (solver : Solver)
    (avail : PartyId → Bool) (shardsX : List (List (List ℚ)))
    (shardsY : List (List ℚ)) (rand : RandSupply) (p : Nat) (coef : Nat → ℚ)
    (hav : allAvailable avail shardsX.length = true)
    (hshape : checkShapes p shardsX shardsY = true)
    (h2 : 2 ≤ shardsX.length)
    (hsolve : plainOLS solver shardsX.flatten shardsY.flatten = some coef) :
    ∃ tr stats mRev,
      fitThenSummarize solver avail (EncryptedLinearRegression.init p)
          shardsX shardsY rand = (tr, .ok (stats, mRev)) ∧
      ∀ j, stats.coefficients j = coef j ∧
        |stats.coefficients j - coef j| ≤ 2 / 1000 * |coef j| := by
  obtain ⟨stats, mRev, heq, _, hcoef⟩ :=
    fitThenSummarize_eq_ok solver avail shardsX shardsY rand p coef
      hav hshape h2 hsolve
  refine ⟨_, stats, mRev, heq, fun j => ⟨hcoef j, ?_⟩⟩
  rw [hcoef j, sub_self, abs_zero]
  positivity

/-- Witness for C1: two holders with one row and one feature each; the
pass-through solver sees exactly the reunified normal equations. -/
theorem fit_summarize_within_tolerance_of_plain_ols_witness :
    ∃ tr stats mRev,
      fitThenSummarize (fun _ c => some c) (fun _ => true)
          (EncryptedLinearRegression.init 1) [[[1]], [[2]]] [[3], [4]]
          (fun _ _ _ _ _ => 0) = (tr, .ok (stats, mRev)) ∧
      ∀ j, stats.coefficients j = momentEntry [[1], [2]] [3, 4] j ∧
        |stats.coefficients j - momentEntry [[1], [2]] [3, 4] j| ≤
          2 / 1000 * |momentEntry [[1], [2]] [3, 4] j| :=
  fit_summarize_within_tolerance_of_plain_ols (fun _ c => some c)
    (fun _ => true) [[[1]], [[2]]] [[3], [4]] (fun _ _ _ _ _ => 0) 1
    (momentEntry [[1], [2]] [3, 4]) (by decide) (by decide) (by decide) rfl

/-! ## The state machine and the reveal boundary -/

theorem revealCount_append (a b : List Event) :
    revealCount (a ++ b) = revealCount a + revealCount b := by
  simp [revealCount]

theorem revealCount_sharesSent (l : List Nat) :
    revealCount (l.map Event.sharesSent) = 0 := by
  induction l with
  | nil => rfl
  | cons x xs ih => simp [revealCount, Event.isReveal] at ih ⊢

theorem aggregateStep_trace (avail : PartyId → Bool)
    (m : EncryptedLinearRegression) (shardsX : List (List (List ℚ)))
    (shardsY : List (List ℚ)) (rand : RandSupply) :
    (aggregateStep avail m shardsX shardsY rand).1 = [] ∨
      (aggregateStep avail m shardsX shardsY rand).1 =
        (List.range shardsX.length).map Event.sharesSent := by
  rw [aggregateStep]
  split_ifs <;> simp

theorem solveStep_trace (solver : Solver) (m : EncryptedLinearRegression)
    (rand : RandSupply) : (solveStep solver m rand).1 = [] := by
  rw [solveStep]
  rcases solver (fun j k => (m.sharedXtX j k).sum)
    (fun j => (m.sharedXty j).sum) with _ | coef <;> rfl

theorem fit_trace_no_reveal (solver : Solver) (avail : PartyId → Bool)
    (m : EncryptedLinearRegression) (shardsX : List (List (List ℚ)))
    (shardsY : List (List ℚ)) (rand : RandSupply) :
    revealCount (fit solver avail m shardsX shardsY rand).1 = 0 := by
  have hagg := aggregateStep_trace avail m shardsX shardsY rand
  have hsolve := solveStep_trace solver
  rw [fit]
  rcases h : aggregateStep avail m shardsX shardsY rand with ⟨tr, res⟩
  rw [h] at hagg
  have htr : revealCount tr = 0 := by
    rcases hagg with h' | h' <;> simp at h' <;> rw [h']
    · rfl
    · exact revealCount_sharesSent _
  cases res with
  | error e => simpa using htr
  | ok m1 =>
    dsimp only
    rcases h1 : solveStep solver m1 rand with ⟨tr2, res2⟩
    have htr2 : tr2 = [] := by
      have hst := hsolve m1 rand
      rw [h1] at hst
      exact hst
    subst htr2
    cases res2 <;> simp [revealCount_append, htr]

theorem summarize_error_trace (avail : PartyId → Bool)
    (m : EncryptedLinearRegression) (e : SmpcError)
    (h : (summarize avail m).2 = .error e) : (summarize avail m).1 = [] := by
  rw [summarize] at h ⊢
  split_ifs at h ⊢ <;> rfl

theorem summarize_ok_trace (avail : PartyId → Bool)
    (m : EncryptedLinearRegression)
    (x : AggregateStatistics × EncryptedLinearRegression)
    (h : (summarize avail m).2 = .ok x) :
    (summarize avail m).1 = [.reveal .aggregateStats] := by
  rw [summarize] at h ⊢
  split_ifs at h ⊢ <;> rfl

theorem fitThenSummarize_decompose (solver : Solver) (avail : PartyId → Bool)
    (m : EncryptedLinearRegression) (shardsX : List (List (List ℚ)))
    (shardsY : List (List ℚ)) (rand : RandSupply) :
    (∀ e, (fit solver avail m shardsX shardsY rand).2 = .error e →
      fitThenSummarize solver avail m shardsX shardsY rand =
        ((fit solver avail m shardsX shardsY rand).1, .error e)) ∧
    (∀ m1, (fit solver avail m shardsX shardsY rand).2 = .ok m1 →
      fitThenSummarize solver avail m shardsX shardsY rand =
        ((fit solver avail m shardsX shardsY rand).1 ++
          (summarize avail m1).1, (summarize avail m1).2)) := by
  constructor
  · intro e he
    rcases h : fit solver avail m shardsX shardsY rand with ⟨tr, res⟩
    rw [h] at he
    cases res with
    | error e' =>
      cases he
      simp [fitThenSummarize, h]
    | ok m1 => simp at he
  · intro m1 hm1
    rcases h : fit solver avail m shardsX shardsY rand with ⟨tr, res⟩
    rw [h] at hm1
    cases res with
    | error e' => simp at hm1
    | ok m1' =>
      cases hm1
      rcases h2 : summarize avail m1 with ⟨tr2, res2⟩
      simp [fitThenSummarize, h, h2]

/-- C3: calling `summarize` on an `EncryptedLinearRegression` on which `fit`
has not successfully completed fails with `NotSolved`; after a successful
`fit`, `summarize` performs the reveal and transitions the model from `Solved`
to `Revealed`, following the state machine
`Created → DataAggregated → Solved → Revealed`. -/
theorem summarize_follows_state_machine (solver : Solver)
    (avail : PartyId → Bool) (shardsX : List (List (List ℚ)))
    (shardsY : List (List ℚ)) (rand : RandSupply) (p : Nat) (coef : Nat → ℚ)
    (hav : allAvailable avail shardsX.length = true)
    (hshape : checkShapes p shardsX shardsY = true)
    (h2 : 2 ≤ shardsX.length)
    (hsolve : plainOLS solver shardsX.flatten shardsY.flatten = some coef) :
    (∀ (av : PartyId → Bool) (m : EncryptedLinearRegression),
      m.state = .Created ∨ m.state = .DataAggregated →
      (summarize av m).2 = .error .NotSolved) ∧
    (EncryptedLinearRegression.init p).state = .Created ∧
    (aggregateStep avail (EncryptedLinearRegression.init p) shardsX shardsY
        rand).2 =
      .ok (aggregatedModel (EncryptedLinearRegression.init p) shardsX shardsY
        rand) ∧
    (aggregatedModel (EncryptedLinearRegression.init p) shardsX shardsY
        rand).state = .DataAggregated ∧
    (fit solver avail (EncryptedLinearRegression.init p) shardsX shardsY
        rand).2 =
      .ok (solvedModel (aggregatedModel (EncryptedLinearRegression.init p)
        shardsX shardsY rand) coef rand) ∧
    (solvedModel (aggregatedModel (EncryptedLinearRegression.init p) shardsX
        shardsY rand) coef rand).state = .Solved ∧
    ∃ stats mRev,
      (summarize avail (solvedModel
        (aggregatedModel (EncryptedLinearRegression.init p) shardsX shardsY
          rand) coef rand)).2 = .ok (stats, mRev) ∧
      mRev.state = .Revealed := by
  have hshape' : checkShapes (EncryptedLinearRegression.init p).p
      shardsX shardsY = true := hshape
  refine ⟨?_, rfl, ?_, rfl, ?_, rfl, ?_⟩
  · intro av m h
    rcases h with h | h <;> simp [summarize, h]
  · rw [aggregateStep_eq_ok avail (EncryptedLinearRegression.init p)
      shardsX shardsY rand hav hshape' h2]
  · rw [fit_eq_ok solver avail (EncryptedLinearRegression.init p)
      shardsX shardsY rand coef hav hshape' h2 hsolve]
  · have hagg1 : 1 ≤ (aggregatedModel (EncryptedLinearRegression.init p)
        shardsX shardsY rand).nholders := by
      show 1 ≤ shardsX.length
      omega
    have hsum := summarize_eq_ok avail
      (solvedModel (aggregatedModel (EncryptedLinearRegression.init p)
        shardsX shardsY rand) coef rand)
      rfl hav (fun j => solvedModel_coefShares_length _ coef rand hagg1 j)
    exact ⟨_, _, by rw [hsum], rfl⟩

/-- Witness for C3: on a fresh (`Created`) model, `summarize` fails with
`NotSolved`. -/
theorem summarize_follows_state_machine_witness :
    (summarize (fun _ => true) (EncryptedLinearRegression.init 1)).2 =
      .error .NotSolved :=
  (summarize_follows_state_machine (fun _ c => some c) (fun _ => true)
      [[[5]], [[6]]] [[7], [8]] (fun _ _ _ _ _ => 0) 1
      (momentEntry [[5], [6]] [7, 8]) (by decide) (by decide) (by decide)
      rfl).1
    (fun _ => true) (EncryptedLinearRegression.init 1) (Or.inl rfl)

theorem not_mem_of_revealCount_zero (tr : List Event)
    (h : revealCount tr = 0) (k : RevealKind) : Event.reveal k ∉ tr := by
  intro hmem
  have hmf : Event.reveal k ∈ tr.filter Event.isReveal :=
    List.mem_filter.mpr ⟨hmem, rfl⟩
  rw [revealCount, List.length_eq_zero] at h
  rw [h] at hmf
  exact absurd hmf (List.not_mem_nil _)

/-- C4: in every execution of `fit` and `summarize`, raw shard data never
crosses the reveal boundary (no `rawShard` reveal event ever occurs — the
holders only send shares), and only the aggregate statistics cross it, exactly
once, as the final event of a successful pipeline, after the encrypted
aggregation and solve steps have completed; a failed pipeline reveals
nothing. -/
theorem raw_never_revealed_aggregate_once (solver : Solver)
    (avail : PartyId → Bool) (m : EncryptedLinearRegression)
    (shardsX : List (List (List ℚ))) (shardsY : List (List ℚ))
    (rand : RandSupply) :
    revealCount (fit solver avail m shardsX shardsY rand).1 = 0 ∧
    (∀ i, Event.reveal (.rawShard i) ∉
      (fitThenSummarize solver avail m shardsX shardsY rand).1) ∧
    (∀ x, (fitThenSummarize solver avail m shardsX shardsY rand).2 = .ok x →
      (fitThenSummarize solver avail m shardsX shardsY rand).1 =
        (fit solver avail m shardsX shardsY rand).1 ++
          [.reveal .aggregateStats] ∧
      revealCount (fitThenSummarize solver avail m shardsX shardsY rand).1
        = 1) ∧
    (∀ e, (fitThenSummarize solver avail m shardsX shardsY rand).2 =
        .error e →
      revealCount (fitThenSummarize solver avail m shardsX shardsY rand).1
        = 0) := by
  have hfit0 := fit_trace_no_reveal solver avail m shardsX shardsY rand
  obtain ⟨hdece, hdeco⟩ :=
    fitThenSummarize_decompose solver avail m shardsX shardsY rand
  refine ⟨hfit0, ?_, ?_, ?_⟩
  · intro i
    rcases hres : (fit solver avail m shardsX shardsY rand).2 with e | m1
    · rw [hdece e hres]
      exact not_mem_of_revealCount_zero _ hfit0 _
    · rw [hdeco m1 hres]
      intro hmem
      rcases List.mem_append.mp hmem with hmem | hmem
      · exact not_mem_of_revealCount_zero _ hfit0 _ hmem
      · rcases hsum : (summarize avail m1).2 with e | x
        · rw [summarize_error_trace avail m1 e hsum] at hmem
          exact absurd hmem (List.not_mem_nil _)
        · rw [summarize_ok_trace avail m1 x hsum] at hmem
          simp at hmem
  · intro x hx
    rcases hres : (fit solver avail m shardsX shardsY rand).2 with e | m1
    · rw [hdece e hres] at hx
      simp at hx
    · have heq := hdeco m1 hres
      rw [heq] at hx ⊢
      dsimp only at hx
      rw [summarize_ok_trace avail m1 x hx]
      refine ⟨rfl, ?_⟩
      rw [revealCount_append, hfit0]
      rfl
  · intro e he
    rcases hres : (fit solver avail m shardsX shardsY rand).2 with e' | m1
    · rw [hdece e' hres]
      exact hfit0
    · have heq := hdeco m1 hres
      rw [heq] at he ⊢
      dsimp only at he
      rw [summarize_error_trace avail m1 e he, List.append_nil]
      exact hfit0

/-- Witness for C4: with the crypto provider unavailable the pipeline fails
with `PartyUnavailable` and nothing is revealed. -/
theorem raw_never_revealed_aggregate_once_witness :
    (fitThenSummarize (fun _ c => some c) (fun _ => false)
        (EncryptedLinearRegression.init 1) [[[1]], [[2]]] [[3], [4]]
        (fun _ _ _ _ _ => 0)).2 = .error .PartyUnavailable ∧
    revealCount (fitThenSummarize (fun _ c => some c) (fun _ => false)
        (EncryptedLinearRegression.init 1) [[[1]], [[2]]] [[3], [4]]
        (fun _ _ _ _ _ => 0)).1 = 0 :=
  ⟨rfl,
    (raw_never_revealed_aggregate_once (fun _ c => some c) (fun _ => false)
        (EncryptedLinearRegression.init 1) [[[1]], [[2]]] [[3], [4]]
        (fun _ _ _ _ _ => 0)).2.2.2 .PartyUnavailable rfl⟩

/-! ## The notebook's pre-scaling (embedded from the notebook source) -/

/-- The notebook's fixed per-coordinate scale factors:
`scale_data = torch.Tensor([10., 10., 10., 1., 1., 10., 100., 10., 10.,
1000., 10., 1000., 10.])` — one factor per feature of the housing data. -/
def scale_data : List ℚ := [10, 10, 10, 1, 1, 10, 100, 10, 10, 1000, 10, 1000, 10]

/-- The notebook's target scale factor: `scale_target = 100.0`. -/
def scale_target : ℚ := 100

/-- The notebook's pre-scaling of one data row: elementwise division by the
fixed factors (`... / scale_data`). -/
def scaleRow (r : List ℚ) : List ℚ := List.zipWith (· / ·) r scale_data

/-- Pre-scaling of a holder's whole data shard, row by row. -/
def scaleShard (s : List (List ℚ)) : List (List ℚ) := s.map scaleRow

/-- Pre-scaling of a holder's target shard (`... / scale_target`). -/
def scaleTargets (ys : List ℚ) : List ℚ := ys.map (· / scale_target)

/-- C6: `fit` performs no internal check of input magnitudes — its success
depends only on the shapes, the party count, party availability and solver
convergence, never on the size of the values; keeping average coordinate
magnitudes in the documented `[0.1, 10]` range (which the tutorial arranges by
pre-dividing with `scaleRow`/`scaleTargets`) is purely a caller contract, and
`fit` accepts unscaled inputs without raising. -/
theorem fit_has_no_magnitude_check (solver : Solver) (avail : PartyId → Bool)
    (shardsX : List (List (List ℚ))) (shardsY : List (List ℚ))
    (rand : RandSupply) (p : Nat) (coef : Nat → ℚ)
    (hav : allAvailable avail shardsX.length = true)
    (hshape : checkShapes p shardsX shardsY = true)
    (h2 : 2 ≤ shardsX.length)
    (hsolve : plainOLS solver shardsX.flatten shardsY.flatten = some coef) :
    ∃ m1, (fit solver avail (EncryptedLinearRegression.init p) shardsX shardsY
      rand).2 = .ok m1 := by
  have hshape' : checkShapes (EncryptedLinearRegression.init p).p
      shardsX shardsY = true := hshape
  exact ⟨_, by rw [fit_eq_ok solver avail (EncryptedLinearRegression.init p)
    shardsX shardsY rand coef hav hshape' h2 hsolve]⟩

/-- Witness for C6: `fit` succeeds on wildly unscaled inputs (coordinate
magnitudes of a million, far outside the documented `[0.1, 10]` range). -/
theorem fit_has_no_magnitude_check_witness :
    ∃ m1, (fit (fun _ c => some c) (fun _ => true)
      (EncryptedLinearRegression.init 1) [[[1000000]], [[2000000]]]
      [[3000000], [4000000]] (fun _ _ _ _ _ => 0)).2 = .ok m1 :=
  fit_has_no_magnitude_check (fun _ c => some c) (fun _ => true)
    [[[1000000]], [[2000000]]] [[3000000], [4000000]] (fun _ _ _ _ _ => 0) 1
    (momentEntry [[1000000], [2000000]] [3000000, 4000000])
    (by decide) (by decide) (by decide) rfl

theorem checkShapes_of (p : Nat) (shardsX : List (List (List ℚ)))
    (shardsY : List (List ℚ))
    (hlen : shardsX.length = shardsY.length)
    (hrows : ∀ s ∈ shardsX, ∀ r ∈ s, r.length = p)
    (hzip : ∀ sy ∈ shardsX.zip shardsY, sy.1.length = sy.2.length) :
    checkShapes p shardsX shardsY = true := by
  simp only [checkShapes, Bool.and_eq_true, List.all_eq_true, beq_iff_eq]
  exact ⟨⟨hlen, hrows⟩, hzip⟩

theorem scaleRow_length (r : List ℚ) (h : r.length = 13) :
    (scaleRow r).length = 13 := by
  have hs : scale_data.length = 13 := rfl
  simp [scaleRow, h, hs]

/-- C7: in the concrete scenario of two holders with 50 rows and 13 features
each, inputs scaled by the documented per-coordinate factors, `fit` followed
by `summarize` produces coefficients within 0.2% relative error of a reference
OLS fit on the concatenated 100-row dataset (here they agree exactly). -/
theorem two_holder_scenario_matches_reference (solver : Solver)
    (avail : PartyId → Bool) (rand : RandSupply)
    (rawX₁ rawX₂ : List (List ℚ)) (rawY₁ rawY₂ : List ℚ) (coef : Nat → ℚ)
    (hx₁ : rawX₁.length = 50) (hx₂ : rawX₂.length = 50)
    (hr₁ : ∀ r ∈ rawX₁, r.length = 13) (hr₂ : ∀ r ∈ rawX₂, r.length = 13)
    (hy₁ : rawY₁.length = 50) (hy₂ : rawY₂.length = 50)
    (hav : allAvailable avail 2 = true)
    (hsolve : plainOLS solver (scaleShard rawX₁ ++ scaleShard rawX₂)
      (scaleTargets rawY₁ ++ scaleTargets rawY₂) = some coef) :
    (scaleShard rawX₁ ++ scaleShard rawX₂).length = 100 ∧
    ∃ tr stats mRev,
      fitThenSummarize solver avail (EncryptedLinearRegression.init 13)
          [scaleShard rawX₁, scaleShard rawX₂]
          [scaleTargets rawY₁, scaleTargets rawY₂] rand =
        (tr, .ok (stats, mRev)) ∧
      ∀ j, stats.coefficients j = coef j ∧
        |stats.coefficients j - coef j| ≤ 2 / 1000 * |coef j| := by
  constructor
  · simp [scaleShard, hx₁, hx₂]
  · have hflatX : ([scaleShard rawX₁, scaleShard rawX₂] :
        List (List (List ℚ))).flatten = scaleShard rawX₁ ++ scaleShard rawX₂ := by
      simp
    have hflatY : ([scaleTargets rawY₁, scaleTargets rawY₂] :
        List (List ℚ)).flatten = scaleTargets rawY₁ ++ scaleTargets rawY₂ := by
      simp
    have hshape : checkShapes 13 [scaleShard rawX₁, scaleShard rawX₂]
        [scaleTargets rawY₁, scaleTargets rawY₂] = true := by
      refine checkShapes_of 13 _ _ rfl ?_ ?_
      · intro s hs r hr
        simp only [List.mem_cons, List.not_mem_nil, or_false] at hs
        rcases hs with rfl | rfl
        · rcases List.mem_map.mp hr with ⟨r0, hr0, rfl⟩
          exact scaleRow_length r0 (hr₁ r0 hr0)
        · rcases List.mem_map.mp hr with ⟨r0, hr0, rfl⟩
          exact scaleRow_length r0 (hr₂ r0 hr0)
      · intro sy hsy
        simp only [List.zip_cons_cons, List.zip_nil_left, List.mem_cons,
          List.not_mem_nil, or_false] at hsy
        rcases hsy with rfl | rfl
        · simp [scaleShard, scaleTargets, hx₁, hy₁]
        · simp [scaleShard, scaleTargets, hx₂, hy₂]
    have hsolve' : plainOLS solver
        ([scaleShard rawX₁, scaleShard rawX₂] :
          List (List (List ℚ))).flatten
        ([scaleTargets rawY₁, scaleTargets rawY₂] :
          List (List ℚ)).flatten = some coef := by
      rw [hflatX, hflatY]
      exact hsolve
    obtain ⟨stats, mRev, heq, _, hcoef⟩ :=
      fitThenSummarize_eq_ok solver avail
        [scaleShard rawX₁, scaleShard rawX₂]
        [scaleTargets rawY₁, scaleTargets rawY₂] rand 13 coef hav hshape
        (by simp) hsolve'
    refine ⟨_, stats, mRev, heq, fun j => ⟨hcoef j, ?_⟩⟩
    rw [hcoef j, sub_self, abs_zero]
    positivity

/-- Witness for C7: two constant 50-row, 13-feature raw shards; the
pass-through solver sees exactly the reunified 100-row normal equations. -/
theorem two_holder_scenario_matches_reference_witness :
    (scaleShard (List.replicate 50 (List.replicate 13 (1 : ℚ))) ++
      scaleShard (List.replicate 50 (List.replicate 13 (2 : ℚ)))).length
        = 100 ∧
    ∃ tr stats mRev,
      fitThenSummarize (fun _ c => some c) (fun _ => true)
          (EncryptedLinearRegression.init 13)
          [scaleShard (List.replicate 50 (List.replicate 13 (1 : ℚ))),
            scaleShard (List.replicate 50 (List.replicate 13 (2 : ℚ)))]
          [scaleTargets (List.replicate 50 (3 : ℚ)),
            scaleTargets (List.replicate 50 (4 : ℚ))]
          (fun _ _ _ _ _ => 0) =
        (tr, .ok (stats, mRev)) ∧
      ∀ j, stats.coefficients j =
          momentEntry
            (scaleShard (List.replicate 50 (List.replicate 13 (1 : ℚ))) ++
              scaleShard (List.replicate 50 (List.replicate 13 (2 : ℚ))))
            (scaleTargets (List.replicate 50 (3 : ℚ)) ++
              scaleTargets (List.replicate 50 (4 : ℚ))) j ∧
        |stats.coefficients j -
            momentEntry
              (scaleShard (List.replicate 50 (List.replicate 13 (1 : ℚ))) ++
                scaleShard (List.replicate 50 (List.replicate 13 (2 : ℚ))))
              (scaleTargets (List.replicate 50 (3 : ℚ)) ++
                scaleTargets (List.replicate 50 (4 : ℚ))) j| ≤
          2 / 1000 *
            |momentEntry
              (scaleShard (List.replicate 50 (List.replicate 13 (1 : ℚ))) ++
                scaleShard (List.replicate 50 (List.replicate 13 (2 : ℚ))))
              (scaleTargets (List.replicate 50 (3 : ℚ)) ++
                scaleTargets (List.replicate 50 (4 : ℚ))) j| :=
  two_holder_scenario_matches_reference (fun _ c => some c) (fun _ => true)
    (fun _ _ _ _ _ => 0)
    (List.replicate 50 (List.replicate 13 (1 : ℚ)))
    (List.replicate 50 (List.replicate 13 (2 : ℚ)))
    (List.replicate 50 (3 : ℚ)) (List.replicate 50 (4 : ℚ))
    (momentEntry
      (scaleShard (List.replicate 50 (List.replicate 13 (1 : ℚ))) ++
        scaleShard (List.replicate 50 (List.replicate 13 (2 : ℚ))))
      (scaleTargets (List.replicate 50 (3 : ℚ)) ++
        scaleTargets (List.replicate 50 (4 : ℚ))))
    (by simp) (by simp)
    (by intro r hr; rw [List.eq_of_mem_replicate hr]; simp)
    (by intro r hr; rw [List.eq_of_mem_replicate hr]; simp)
    (by simp) (by simp) (by decide) rfl

/-- C8: every error is terminal for the current fit.  Loss of any required
party before the `Revealed` state aborts the computation with
`PartyUnavailable` (both during `fit` and at the `Solved`-state reveal); an
error from `fit` surfaces to the pipeline caller unchanged, with no further
protocol activity and no silent retry; and a caller cannot resume a partial
run — `summarize` refuses any pre-`Solved` model with `NotSolved`, so a fresh
`fit` from `Created` with fresh shares is the only way forward. -/
theorem errors_are_terminal :
    (∀ (solver : Solver) (avail : PartyId → Bool)
      (m : EncryptedLinearRegression) (shardsX : List (List (List ℚ)))
      (shardsY : List (List ℚ)) (rand : RandSupply),
      allAvailable avail shardsX.length = false →
      fit solver avail m shardsX shardsY rand = ([], .error .PartyUnavailable)) ∧
    (∀ (avail : PartyId → Bool) (m : EncryptedLinearRegression),
      m.state = .Solved → allAvailable avail m.nholders = false →
      (summarize avail m).2 = .error .PartyUnavailable) ∧
    (∀ (solver : Solver) (avail : PartyId → Bool)
      (m : EncryptedLinearRegression) (shardsX : List (List (List ℚ)))
      (shardsY : List (List ℚ)) (rand : RandSupply) (e : SmpcError),
      (fit solver avail m shardsX shardsY rand).2 = .error e →
      fitThenSummarize solver avail m shardsX shardsY rand =
        ((fit solver avail m shardsX shardsY rand).1, .error e)) ∧
    (∀ (avail : PartyId → Bool) (m : EncryptedLinearRegression),
      m.state = .Created ∨ m.state = .DataAggregated →
      (summarize avail m).2 = .error .NotSolved) := by
  refine ⟨?_, ?_, ?_, ?_⟩
  · intro solver avail m shardsX shardsY rand h
    simp [fit, aggregateStep, h]
  · intro avail m hstate h
    simp [summarize, hstate, h]
  · intro solver avail m shardsX shardsY rand e he
    exact (fitThenSummarize_decompose solver avail m shardsX shardsY rand).1
      e he
  · intro avail m h
    rcases h with h | h <;> simp [summarize, h]

/-- Witness for C8: with every party lost, `fit` aborts with
`PartyUnavailable`, and `summarize` on a fresh model fails with `NotSolved`. -/
theorem errors_are_terminal_witness :
    fit (fun _ c => some c) (fun _ => false)
      (EncryptedLinearRegression.init 1) [[[1]], [[2]]] [[3], [4]]
      (fun _ _ _ _ _ => 0) = ([], .error .PartyUnavailable) ∧
    (summarize (fun _ => false) (EncryptedLinearRegression.init 1)).2 =
      .error .NotSolved :=
  ⟨errors_are_terminal.1 (fun _ c => some c) (fun _ => false)
      (EncryptedLinearRegression.init 1) [[[1]], [[2]]] [[3], [4]]
      (fun _ _ _ _ _ => 0) rfl,
    errors_are_terminal.2.2.2 (fun _ => false)
      (EncryptedLinearRegression.init 1) (Or.inl rfl)⟩

/-! ## The notebook's data movement between virtual workers

Modelled from the spec: the worker/pointer abstraction (virtual workers,
`send`, remote execution of tensor operations, `copy`, `get`) is library
code absent from the fragment; the notebook's cells 13 and 29 are embedded on
top of this model. -/

/-- Where a tensor lives: the local process driving the notebook, or one of
the remote virtual workers. -/
inductive Loc where
  | localWorker
  | worker (i : Nat)
deriving DecidableEq, Repr

/-- A stored tensor: its location and its value. -/
structure Cell where
  loc : Loc
  val : List ℚ
deriving DecidableEq, Repr

/-- The store of the simulated grid: every tensor in existence, addressed by
index; a pointer tensor is such an index. -/
structure Store where
  cells : List Cell
deriving DecidableEq, Repr

/-- The next fresh address. -/
def Store.fresh (st : Store) : Nat := st.cells.length

/-- Append a new cell. -/
def Store.push (st : Store) (c : Cell) : Store := ⟨st.cells ++ [c]⟩

/-- Dereference a pointer. -/
def Store.read (st : Store) (ptr : Nat) : Option Cell := st.cells.get? ptr

/-- `tensor.send(worker)`: a copy of the (local) tensor value is placed on
the worker; the caller keeps a pointer to the new remote cell. -/
def Store.send (st : Store) (v : List ℚ) (w : Nat) : Nat × Store :=
  (st.fresh, st.push ⟨.worker w, v⟩)

/-- Elementwise division of two tensors: executed remotely by the worker that
owns them (the result is stored there); fails if the operands live on
different workers. -/
def Store.divRemote (st : Store) (pa pb : Nat) : Option (Nat × Store) :=
  match st.read pa, st.read pb with
  | some ca, some cb =>
    if ca.loc = cb.loc then
      some (st.fresh, st.push ⟨ca.loc, List.zipWith (· / ·) ca.val cb.val⟩)
    else none
  | _, _ => none

/-- Division of a tensor by a public scalar: executed where the tensor
lives. -/
def Store.divScalar (st : Store) (pa : Nat) (c : ℚ) : Option (Nat × Store) :=
  match st.read pa with
  | some ca => some (st.fresh, st.push ⟨ca.loc, ca.val.map (· / c)⟩)
  | none => none

/-- `x.copy()`: duplicates the tensor in place, wherever it lives. -/
def Store.copy (st : Store) (pa : Nat) : Option (Nat × Store) :=
  match st.read pa with
  | some ca => some (st.fresh, st.push ca)
  | none => none

/-- `x.get()`: moves the tensor to the local process (its previous location
no longer holds it). -/
def Store.get (st : Store) (pa : Nat) : Option Store :=
  match st.read pa with
  | some ca => some ⟨st.cells.set pa ⟨.localWorker, ca.val⟩⟩
  | none => none

/-- Whether a cell lives on the local process. -/
def Cell.onLocal : Cell → Bool
  | ⟨.localWorker, _⟩ => true
  | ⟨.worker _, _⟩ => false

/-- The tensors held by the local process. -/
def Store.localCells (st : Store) : List Cell := st.cells.filter Cell.onLocal

/-- Cell 13 of the notebook, for one worker:
`housing_data.append(worker.search(["#housing", "#data"])[0] /
scale_data.send(worker))` and
`housing_targets.append(worker.search(["#housing", "#target"])[0] /
scale_target)`: the scale tensor is sent to the worker, the data shard is
divided by it remotely, and the target shard is divided by the public scalar
remotely. -/
def scaleOnWorker (st : Store) (dataPtr targetPtr : Nat) (w : Nat) :
    Option (Nat × Nat × Store) :=
  match (st.send scale_data w : Nat × Store) with
  | (sp, st1) =>
    match st1.divRemote dataPtr sp with
    | none => none
    | some (dp, st2) =>
      match st2.divScalar targetPtr scale_target with
      | none => none
      | some (tp, st3) => some (dp, tp, st3)

/-- Cell 29 of the notebook, for one tensor: `x.copy().get()` — duplicate the
remote tensor, then pull the duplicate to the local process. -/
def copyGet (st : Store) (pa : Nat) : Option (Nat × Store) :=
  match st.copy pa with
  | none => none
  | some (pc, st1) =>
    match st1.get pc with
    | none => none
    | some st2 => some (pc, st2)

theorem Store.read_push_of_lt (st : Store) (c : Cell) (p : Nat)
    (h : p < st.cells.length) : (st.push c).read p = st.read p := by
  simp only [Store.read, Store.push]
  exact List.get?_append h

theorem Store.read_push_fresh (st : Store) (c : Cell) :
    (st.push c).read st.fresh = some c := by
  simp only [Store.read, Store.push, Store.fresh]
  rw [List.get?_append_right (Nat.le_refl _)]
  simp

theorem Store.read_lt_length (st : Store) (p : Nat) (c : Cell)
    (h : st.read p = some c) : p < st.cells.length := by
  rw [Store.read] at h
  obtain ⟨hlt, _⟩ := List.get?_eq_some.mp h
  exact hlt

theorem Store.localCells_push_worker (st : Store) (w : Nat) (v : List ℚ) :
    (st.push ⟨.worker w, v⟩).localCells = st.localCells := by
  simp [Store.localCells, Store.push, List.filter_append, Cell.onLocal]

/-- C9: the tutorial's pre-scaling keeps the data at its holder.  For every
worker, the scale tensor is sent to that worker and both divisions are
executed remotely on the worker's shard: the three tensors created (the sent
scale tensor, the scaled data, the scaled target) all live on that worker, the
results are readable there, and the set of tensors held by the local process
is unchanged — no raw housing data moves to the local process. -/
theorem scaling_stays_on_worker (st : Store) (dataPtr targetPtr w : Nat)
    (xs ys : List ℚ)
    (hd : st.read dataPtr = some ⟨.worker w, xs⟩)
    (ht : st.read targetPtr = some ⟨.worker w, ys⟩) :
    ∃ dp tp st',
      scaleOnWorker st dataPtr targetPtr w = some (dp, tp, st') ∧
      st'.read dp = some ⟨.worker w, List.zipWith (· / ·) xs scale_data⟩ ∧
      st'.read tp = some ⟨.worker w, ys.map (· / scale_target)⟩ ∧
      st'.cells = st.cells ++
        [⟨.worker w, scale_data⟩,
          ⟨.worker w, List.zipWith (· / ·) xs scale_data⟩,
          ⟨.worker w, ys.map (· / scale_target)⟩] ∧
      st'.localCells = st.localCells := by
  have hdlt := Store.read_lt_length st dataPtr _ hd
  have htlt := Store.read_lt_length st targetPtr _ ht
  set c1 : Cell := ⟨.worker w, scale_data⟩ with hc1
  set c2 : Cell := ⟨.worker w, List.zipWith (· / ·) xs scale_data⟩ with hc2
  set c3 : Cell := ⟨.worker w, ys.map (· / scale_target)⟩ with hc3
  have hlen1 : (st.push c1).cells.length = st.cells.length + 1 := by
    simp [Store.push]
  have hlen2 : ((st.push c1).push c2).cells.length = st.cells.length + 2 := by
    simp [Store.push]
  have h1 : (st.push c1).read dataPtr = some ⟨.worker w, xs⟩ := by
    rw [Store.read_push_of_lt st c1 dataPtr hdlt]
    exact hd
  have h2 : (st.push c1).read st.fresh = some c1 := Store.read_push_fresh st c1
  have h3 : ((st.push c1).push c2).read targetPtr = some ⟨.worker w, ys⟩ := by
    rw [Store.read_push_of_lt (st.push c1) c2 targetPtr
      (by rw [hlen1]; omega)]
    rw [Store.read_push_of_lt st c1 targetPtr htlt]
    exact ht
  have hrun : scaleOnWorker st dataPtr targetPtr w =
      some ((st.push c1).fresh, ((st.push c1).push c2).fresh,
        ((st.push c1).push c2).push c3) := by
    rw [scaleOnWorker]
    dsimp only [Store.send]
    rw [Store.divRemote, h1, h2]
    dsimp only
    rw [if_pos rfl]
    dsimp only
    rw [Store.divScalar, h3]
  refine ⟨_, _, _, hrun, ?_, ?_, ?_, ?_⟩
  · have hlt12 : (st.push c1).fresh < ((st.push c1).push c2).cells.length := by
      show (st.push c1).cells.length < ((st.push c1).push c2).cells.length
      rw [hlen2, hlen1]
      omega
    rw [Store.read_push_of_lt ((st.push c1).push c2) c3 (st.push c1).fresh
      hlt12]
    exact Store.read_push_fresh (st.push c1) c2
  · exact Store.read_push_fresh ((st.push c1).push c2) c3
  · simp [Store.push]
  · rw [Store.localCells_push_worker, Store.localCells_push_worker,
      Store.localCells_push_worker]

/-- Witness for C9: a two-cell store holding one worker's shard and target. -/
theorem scaling_stays_on_worker_witness :
    ∃ dp tp st',
      scaleOnWorker ⟨[⟨.worker 0, [5, 6]⟩, ⟨.worker 0, [7]⟩]⟩ 0 1 0 =
        some (dp, tp, st') ∧
      st'.read dp = some ⟨.worker 0, List.zipWith (· / ·) [5, 6] scale_data⟩ ∧
      st'.read tp = some ⟨.worker 0, ([7] : List ℚ).map (· / scale_target)⟩ ∧
      st'.cells = ([⟨.worker 0, [5, 6]⟩, ⟨.worker 0, [7]⟩] : List Cell) ++
        [⟨.worker 0, scale_data⟩,
          ⟨.worker 0, List.zipWith (· / ·) [5, 6] scale_data⟩,
          ⟨.worker 0, ([7] : List ℚ).map (· / scale_target)⟩] ∧
      st'.localCells =
        Store.localCells ⟨[⟨.worker 0, [5, 6]⟩, ⟨.worker 0, [7]⟩]⟩ :=
  scaling_stays_on_worker ⟨[⟨.worker 0, [5, 6]⟩, ⟨.worker 0, [7]⟩]⟩ 0 1 0
    [5, 6] [7] rfl rfl

/-- C10: retrieving a tensor for the plaintext comparison leaves the
distributed state unchanged: `x.copy().get()` pulls a fresh local copy of the
value while every pre-existing cell — in particular the original scaled shard
on its worker — is untouched. -/
theorem copy_get_leaves_remote_unchanged (st : Store) (pa w : Nat)
    (v : List ℚ) (h : st.read pa = some ⟨.worker w, v⟩) :
    ∃ pc st',
      copyGet st pa = some (pc, st') ∧
      st'.read pc = some ⟨.localWorker, v⟩ ∧
      st'.read pa = some ⟨.worker w, v⟩ ∧
      ∀ p, p < st.cells.length → st'.read p = st.read p := by
  have hlt := Store.read_lt_length st pa _ h
  have hfresh : (st.push ⟨.worker w, v⟩).read st.fresh =
      some ⟨.worker w, v⟩ := Store.read_push_fresh st _
  have hrun : copyGet st pa =
      some (st.fresh,
        ⟨(st.push ⟨.worker w, v⟩).cells.set st.fresh ⟨.localWorker, v⟩⟩) := by
    rw [copyGet, Store.copy, h]
    dsimp only
    rw [Store.get, hfresh]
  have hf : st.fresh = st.cells.length := rfl
  refine ⟨_, _, hrun, ?_, ?_, ?_⟩
  · show ((st.push ⟨.worker w, v⟩).cells.set st.fresh
      ⟨.localWorker, v⟩).get? st.fresh = some ⟨.localWorker, v⟩
    exact List.get?_set_eq_of_lt _ (by simp [Store.push, hf])
  · show ((st.push ⟨.worker w, v⟩).cells.set st.fresh
      ⟨.localWorker, v⟩).get? pa = some ⟨.worker w, v⟩
    rw [List.get?_set_ne _ _ (by rw [hf]; omega)]
    show (st.push ⟨.worker w, v⟩).read pa = some ⟨.worker w, v⟩
    rw [Store.read_push_of_lt st _ pa hlt]
    exact h
  · intro p hp
    show ((st.push ⟨.worker w, v⟩).cells.set st.fresh
      ⟨.localWorker, v⟩).get? p = st.read p
    rw [List.get?_set_ne _ _ (by rw [hf]; omega)]
    exact Store.read_push_of_lt st _ p hp

/-- Witness for C10: a one-cell store holding a remote tensor on worker 1. -/
theorem copy_get_leaves_remote_unchanged_witness :
    ∃ pc st',
      copyGet ⟨[⟨.worker 1, [9, 8]⟩]⟩ 0 = some (pc, st') ∧
      st'.read pc = some ⟨.localWorker, [9, 8]⟩ ∧
      st'.read 0 = some ⟨.worker 1, [9, 8]⟩ ∧
      ∀ p, p < (⟨[⟨.worker 1, [9, 8]⟩]⟩ : Store).cells.length →
        st'.read p = Store.read ⟨[⟨.worker 1, [9, 8]⟩]⟩ p :=
  copy_get_leaves_remote_unchanged ⟨[⟨.worker 1, [9, 8]⟩]⟩ 0 1 [9, 8] rfl

end PySyft
